import Mathlib

/-!
# Verification of the Vessel telemetry core (`src/vessel/vessel.py`)

A shallow embedding, over the reals, of the quantitative telemetry engine of
Project Namirha: the `Fatigue` scorer, the `PulseEstimator`, the
`DirectionTracker`, the `Pods` registry and the breathing-event part of the
`RhythmStore`.  Embedding vectors (numpy arrays in the source) are modelled as
functions `Fin d → ℝ`; Python lists are Lean lists; `round(x, 4)` is modelled
by `roundTo4`.  Every definition mirrors the corresponding Python method; the
theorems at the end settle the behavioural claims about those methods.
-/

namespace Vessel

/-! ## Vectors: dot product and euclidean norm (numpy `dot` / `linalg.norm`) -/

/-- Embedding vectors: fixed-length real vectors, as in the source where
numpy arrays of a fixed embedding dimension are used. -/
def Vec (d : ℕ) : Type := Fin d → ℝ

noncomputable instance : Sub (Vec d) := ⟨fun v w i => v i - w i⟩
noncomputable instance : Add (Vec d) := ⟨fun v w i => v i + w i⟩
noncomputable instance : SMul ℝ (Vec d) := ⟨fun c v i => c * v i⟩
instance : Zero (Vec d) := ⟨fun _ => 0⟩

/-- `np.dot` on two vectors. -/
noncomputable def dotp (v w : Vec d) : ℝ := ∑ i, v i * w i

/-- `np.linalg.norm` of a vector. -/
noncomputable def nrm (v : Vec d) : ℝ := Real.sqrt (∑ i, v i ^ 2)

theorem dotp_self_eq (v : Vec d) : dotp v v = ∑ i, v i ^ 2 := by
  unfold dotp; exact Finset.sum_congr rfl fun i _ => (sq (v i)).symm

theorem nrm_nonneg (v : Vec d) : 0 ≤ nrm v := Real.sqrt_nonneg _

theorem sum_sq_nonneg (v : Vec d) : 0 ≤ ∑ i, v i ^ 2 :=
  Finset.sum_nonneg fun i _ => sq_nonneg (v i)

theorem nrm_sq (v : Vec d) : nrm v ^ 2 = ∑ i, v i ^ 2 :=
  Real.sq_sqrt (sum_sq_nonneg v)

theorem nrm_eq_zero_iff (v : Vec d) : nrm v = 0 ↔ v = 0 := by
  unfold nrm
  rw [Real.sqrt_eq_zero (sum_sq_nonneg v)]
  constructor
  · intro h
    funext i
    have hi := (Finset.sum_eq_zero_iff_of_nonneg
      (fun j _ => sq_nonneg (v j))).mp h i (Finset.mem_univ i)
    show v i = 0
    exact sq_eq_zero_iff.mp hi
  · intro h; subst h
    exact Finset.sum_eq_zero fun i _ => by
      show (0 : ℝ) ^ 2 = 0
      norm_num

/-- Cauchy–Schwarz for the model's dot product and norm. -/
theorem dotp_le_nrm_mul_nrm (v w : Vec d) : dotp v w ≤ nrm v * nrm w := by
  unfold dotp nrm
  exact Real.sum_mul_le_sqrt_mul_sqrt _ v w

theorem nrm_smul (c : ℝ) (v : Vec d) : nrm (c • v) = |c| * nrm v := by
  unfold nrm
  have : ∀ i, (c • v) i = c * v i := fun _ => rfl
  simp only [this, mul_pow, ← Finset.mul_sum]
  rw [Real.sqrt_mul (sq_nonneg c), Real.sqrt_sq_eq_abs]

/-! ## Rounding: Python's `round(x, k)` for `k = 3, 4`.

Python rounds half to even; the model uses Lean's `round` (half up).  The two
agree except at exact midpoints, which occur at no input used below. -/

noncomputable def roundTo4 (x : ℝ) : ℝ := (round (x * 10000) : ℤ) / 10000

noncomputable def roundTo3 (x : ℝ) : ℝ := (round (x * 1000) : ℤ) / 1000

theorem roundTo4_of_eq_int (x : ℝ) (n : ℤ) (h : x * 10000 = (n : ℝ)) :
    roundTo4 x = (n : ℝ) / 10000 := by
  unfold roundTo4
  rw [h, round_intCast]

theorem round_mono' : Monotone (round : ℝ → ℤ) := by
  intro a b hab
  rw [round_eq, round_eq]
  exact Int.floor_le_floor (by linarith)

theorem roundTo4_mono {a b : ℝ} (hab : a ≤ b) : roundTo4 a ≤ roundTo4 b := by
  unfold roundTo4
  have := round_mono' (mul_le_mul_of_nonneg_right hab (by norm_num : (0:ℝ) ≤ 10000))
  have hcast : ((round (a * 10000) : ℤ) : ℝ) ≤ ((round (b * 10000) : ℤ) : ℝ) :=
    Int.cast_le.mpr this
  linarith

theorem roundTo4_le_of_le {x c : ℝ} (n : ℤ) (hx : x ≤ c)
    (hc : c * 10000 + 1 / 2 < (n : ℝ) + 1) : roundTo4 x ≤ (n : ℝ) / 10000 := by
  unfold roundTo4
  have h1 : round (x * 10000) ≤ n := by
    rw [round_eq]
    apply Int.floor_le_iff.mpr
    have : x * 10000 ≤ c * 10000 := by linarith
    linarith
  have : ((round (x * 10000) : ℤ) : ℝ) ≤ (n : ℝ) := Int.cast_le.mpr h1
  linarith

theorem le_roundTo4_of_le {x c : ℝ} (n : ℤ) (hx : c ≤ x)
    (hc : (n : ℝ) ≤ c * 10000 + 1 / 2) : (n : ℝ) / 10000 ≤ roundTo4 x := by
  unfold roundTo4
  have h1 : n ≤ round (x * 10000) := by
    rw [round_eq]
    apply Int.le_floor.mpr
    have : c * 10000 ≤ x * 10000 := by linarith
    linarith
  have : ((n : ℤ) : ℝ) ≤ ((round (x * 10000) : ℤ) : ℝ) := Int.cast_le.mpr h1
  linarith

/-! ## Module-level threshold constants of `vessel.py` -/

noncomputable def THETA_SOFT : ℝ := 0.68
noncomputable def THETA_HARD : ℝ := 0.84
noncomputable def POD_THETA_HIGH : ℝ := 0.85
noncomputable def POD_THETA_SOFT : ℝ := 0.50

/-! ## The `Fatigue` scorer

`Fatigue.__init__(w=5)` holds a window size `w`, the embedding history `e`
and the velocity history `v`. -/

structure FatigueState (d : ℕ) where
  w : ℕ
  e : List (Vec d)
  v : List (Vec d)

namespace Fatigue

def init (d w : ℕ) : FatigueState d := ⟨w, [], []⟩

/-- `Fatigue.update`: append the velocity against the previous last embedding
when the history is non-empty, evict the oldest velocity past `w`, append the
embedding, evict the oldest embedding past `w` (`pop(0)` is `tail`). -/
noncomputable def update (st : FatigueState d) (emb : Vec d) : FatigueState d :=
  let v1 := match st.e.getLast? with
    | some prev => st.v ++ [emb - prev]
    | none => st.v
  let v2 := if st.w < v1.length then v1.tail else v1
  let e1 := st.e ++ [emb]
  let e2 := if st.w < e1.length then e1.tail else e1
  ⟨st.w, e2, v2⟩

/-- `Fatigue.reset`: clears both histories. -/
def reset (st : FatigueState d) : FatigueState d := ⟨st.w, [], []⟩

/-- `Fatigue._dp`: cosine similarity of the two most recent velocities
(`v[-2]`, `v[-1]`), `0` when fewer than two velocities or a zero norm. -/
noncomputable def dpVal (v : List (Vec d)) : ℝ :=
  match v.reverse with
  | b :: a :: _ =>
    let na := nrm a
    let nb := nrm b
    if 0 < na ∧ 0 < nb then dotp a b / (na * nb) else 0
  | _ => 0

/-- `Fatigue._cc`: curvature persistence from the three most recent
velocities (`v[-3]`, `v[-2]`, `v[-1]`), `0` when fewer than three or the
denominator is zero. -/
noncomputable def ccVal (v : List (Vec d)) : ℝ :=
  match v.reverse with
  | c :: b :: a :: _ =>
    let cr := nrm ((c - b) - (b - a))
    let bs := nrm (b - a) ^ 3
    if 0 < bs then 1 / (cr / bs + 1e-8) else 0
  | _ => 0

/-- Gram matrix entries of the n×2 embedding-history matrix (rows are the
embeddings): `AᵀA = [[a, b], [b, c]]`. -/
noncomputable def gramA (rows : List (Vec 2)) : ℝ := (rows.map fun r => r 0 ^ 2).sum

noncomputable def gramB (rows : List (Vec 2)) : ℝ := (rows.map fun r => r 0 * r 1).sum

noncomputable def gramC (rows : List (Vec 2)) : ℝ := (rows.map fun r => r 1 ^ 2).sum

/-- Singular values of the n×2 embedding-history matrix in descending order:
the square roots of the two eigenvalues of the Gram matrix `AᵀA`.  This is
the closed form of what `np.linalg.svd(..., full_matrices=False)` returns for
a matrix with two columns and `n ≥ 2` rows (`min(n, 2) = 2` values). -/
noncomputable def svdVals2 (rows : List (Vec 2)) : List ℝ :=
  let a := gramA rows
  let b := gramB rows
  let c := gramC rows
  let disc := Real.sqrt ((a - c) ^ 2 + 4 * b ^ 2)
  [Real.sqrt ((a + c + disc) / 2), Real.sqrt ((a + c - disc) / 2)]

/-- `Fatigue._sc` at embedding dimension 2: the ratio of the top-3 singular
values to their total, `0` for fewer than two embeddings or a zero total.
(The `try/except` around the decomposition cannot fire in the closed form;
its fallback is the same `0`.) -/
noncomputable def scVal (rows : List (Vec 2)) : ℝ :=
  if rows.length < 2 then 0
  else
    let S := svdVals2 rows
    let t := S.sum
    if 0 < t then (S.take 3).sum / t else 0

/-- `Fatigue.score` with the spectral-concentration sub-score `sc` passed as
a value: the source computes `sc` by an external SVD routine (numpy), and the
combination `0.35·dp + 0.35·sc + 0.3·cc`, the clamp and the thresholding do
not depend on how `sc` was produced.  Returns (rounded fatigue, components
(`None` on the short-history branch, where the source returns `{}`), status). -/
noncomputable def scoreWith (st : FatigueState d) (sc : ℝ) :
    ℝ × Option (ℝ × ℝ × ℝ) × String :=
  if st.e.length < 2 then (0, none, "fresh")
  else
    let dp := dpVal st.v
    let cc := ccVal st.v
    let f := max 0 (min 1 (0.35 * dp + 0.35 * sc + 0.3 * cc))
    let status := if THETA_HARD < f then "hard"
      else if THETA_SOFT < f then "soft" else "fresh"
    (roundTo4 f, some (roundTo4 dp, roundTo4 sc, roundTo4 cc), status)

/-- `Fatigue.score` at embedding dimension 2, with the singular values in
closed form. -/
noncomputable def score (st : FatigueState 2) : ℝ × Option (ℝ × ℝ × ℝ) × String :=
  scoreWith st (scVal st.e)

/-- State after feeding the embeddings of `es` in order to a fresh
`Fatigue()` (window size 5, as constructed by `Vessel.__init__`). -/
noncomputable def run (es : List (Vec d)) : FatigueState d :=
  es.foldl update (init d 5)

end Fatigue

/-! ### Window characterization -/

/-- The last `n` elements of a list. -/
def lastN (n : ℕ) (l : List α) : List α := l.drop (l.length - n)

/-- Appending then evicting past capacity `w`, the shape shared by both
history buffers of `Fatigue.update`. -/
def pushCap (w : ℕ) (l : List α) (x : α) : List α :=
  let l1 := l ++ [x]
  if w < l1.length then l1.tail else l1

/-- Pairwise differences of consecutive elements: `es[i+1] - es[i]`. -/
noncomputable def adjDiffs (es : List (Vec d)) : List (Vec d) :=
  List.zipWith (fun x y => x - y) es.tail es

theorem length_lastN (n : ℕ) (l : List α) : (lastN n l).length = min n l.length := by
  unfold lastN
  rw [List.length_drop]
  omega

theorem length_adjDiffs (es : List (Vec d)) :
    (adjDiffs es).length = es.length - 1 := by
  unfold adjDiffs
  rw [List.length_zipWith, List.length_tail]
  omega

theorem tail_append_singleton {l : List α} (h : l ≠ []) (x : α) :
    (l ++ [x]).tail = l.tail ++ [x] := by
  cases l with
  | nil => exact absurd rfl h
  | cons a t => rfl

theorem lastN_append_singleton (n : ℕ) (hn : 0 < n) (l : List α) (x : α) :
    lastN n (l ++ [x]) = pushCap n (lastN n l) x := by
  unfold lastN pushCap
  rcases lt_or_le l.length n with hlt | hle
  · have h1 : (l ++ [x]).length - n = 0 := by simp; omega
    have h2 : l.length - n = 0 := by omega
    rw [h1, h2, List.drop_zero, List.drop_zero,
      if_neg (by simp; omega)]
  · have hdl : (l.drop (l.length - n)).length = n := by rw [List.length_drop]; omega
    have hne : l.drop (l.length - n) ≠ [] := by
      intro h
      rw [h] at hdl
      simp at hdl
      omega
    rw [if_pos (by rw [List.length_append, hdl]; simp)]
    rw [tail_append_singleton hne]
    have h3 : (l ++ [x]).length - n = (l.length - n) + 1 := by simp; omega
    rw [h3, List.drop_append_of_le_length (by omega)]
    congr 1
    rw [List.tail_drop]

theorem getLast?_drop_of_lt {l : List α} {k : ℕ} (h : k < l.length) :
    (l.drop k).getLast? = l.getLast? := by
  induction l generalizing k with
  | nil => simp at h
  | cons a t ih =>
    cases k with
    | zero => rfl
    | succ k' =>
      simp only [List.drop_succ_cons]
      rw [ih (by simpa using h)]
      cases t with
      | nil => simp at h
      | cons b t' => rfl

theorem getLast?_lastN {n : ℕ} (hn : 0 < n) (l : List α) :
    (lastN n l).getLast? = l.getLast? := by
  unfold lastN
  cases l with
  | nil => simp
  | cons a t => exact getLast?_drop_of_lt (by simp; omega)

theorem adjDiffs_append_singleton (es : List (Vec d)) (h : es ≠ []) (x : Vec d) :
    adjDiffs (es ++ [x]) = adjDiffs es ++ [x - es.getLast h] := by
  induction es with
  | nil => exact absurd rfl h
  | cons a t ih =>
    cases t with
    | nil => rfl
    | cons b t' =>
      have step : adjDiffs ((a :: b :: t') ++ [x])
          = (b - a) :: adjDiffs ((b :: t') ++ [x]) := rfl
      rw [step, ih (by simp)]
      rfl

theorem Fatigue.update_mk_some (w : ℕ) (e v : List (Vec d)) (x prev : Vec d)
    (h : e.getLast? = some prev) :
    Fatigue.update ⟨w, e, v⟩ x = ⟨w, pushCap w e x, pushCap w v (x - prev)⟩ := by
  simp only [Fatigue.update, h, pushCap]

theorem Fatigue.update_mk_none (w : ℕ) (e v : List (Vec d)) (x : Vec d)
    (h : e.getLast? = none) :
    Fatigue.update ⟨w, e, v⟩ x =
      ⟨w, pushCap w e x, if w < v.length then v.tail else v⟩ := by
  simp only [Fatigue.update, h, pushCap]

/-- After feeding embeddings `es` to a fresh `Fatigue()`: the embedding
history is the last 5 inputs and the velocity history is the last 5 pairwise
differences of consecutive inputs. -/
theorem Fatigue.run_spec (es : List (Vec d)) :
    Fatigue.run es = ⟨5, lastN 5 es, lastN 5 (adjDiffs es)⟩ := by
  induction es using List.reverseRecOn with
  | nil => rfl
  | append_singleton es x ih =>
    have hrun : Fatigue.run (es ++ [x]) = Fatigue.update (Fatigue.run es) x := by
      unfold Fatigue.run
      rw [List.foldl_append]
      rfl
    rw [hrun, ih]
    rcases eq_or_ne es [] with hnil | hne
    · subst hnil
      rfl
    · have hlast : (lastN 5 es).getLast? = some (es.getLast hne) := by
        rw [getLast?_lastN (by norm_num) es]
        exact List.getLast?_eq_getLast es hne
      rw [Fatigue.update_mk_some 5 _ _ x (es.getLast hne) hlast,
        lastN_append_singleton 5 (by norm_num) es x,
        adjDiffs_append_singleton es hne x,
        lastN_append_singleton 5 (by norm_num) (adjDiffs es) (x - es.getLast hne)]

theorem Fatigue.run_lengths (es : List (Vec d)) :
    (Fatigue.run es).e.length = min 5 es.length ∧
    (Fatigue.run es).v.length = min 5 (es.length - 1) := by
  rw [Fatigue.run_spec]
  constructor
  · exact length_lastN 5 es
  · rw [length_lastN, length_adjDiffs]

/-! ## The `PulseEstimator`

State: the EMA pulse `tau` (initially 0.5), the last timestamp and the two
most recent user embeddings.  The weights `w_L = 0.45`, `w_M = 0.15`,
`w_N = 0.25`, `w_D = 0.15` and `smoothing = 0.7` are constants that no method
ever writes. -/

structure PulseState (d : ℕ) where
  tau : ℝ
  last_time : Option ℝ
  last_user_emb : Option (Vec d)
  prev_user_emb : Option (Vec d)

namespace Pulse

noncomputable def init (d : ℕ) : PulseState d := ⟨0.5, none, none, none⟩

/-- Latency factor `φ_L = e^(−(t − last)/30)`, neutral 0.5 on the first
turn. -/
noncomputable def phiL (st : PulseState d) (timestamp : ℝ) : ℝ :=
  match st.last_time with
  | some t0 => Real.exp (-(timestamp - t0) / 30)
  | none => 0.5

/-- Length factor `M_t = min(len(msg)/500, 1)`. -/
noncomputable def lenFactor (msg : String) : ℝ := min ((msg.length : ℝ) / 500) 1

/-- Novelty factor `N_t = 1 − max(0, cos(emb, last))`, 0.5 with no prior
embedding or a zero norm. -/
noncomputable def novelty (st : PulseState d) (emb : Vec d) : ℝ :=
  match st.last_user_emb with
  | some le =>
    let na := nrm emb
    let nb := nrm le
    if 0 < na ∧ 0 < nb then 1 - max 0 (dotp emb le / (na * nb)) else 0.5
  | none => 0.5

/-- Direction-change factor `D_t = 1 − max(0, cos(last − prev, emb − last))`,
0.5 until two prior embeddings exist or on a zero-length delta. -/
noncomputable def dirChange (st : PulseState d) (emb : Vec d) : ℝ :=
  match st.prev_user_emb, st.last_user_emb with
  | some pe, some le =>
    let vprev := le - pe
    let vcurr := emb - le
    let na := nrm vprev
    let nb := nrm vcurr
    if 0 < na ∧ 0 < nb then 1 - max 0 (dotp vprev vcurr / (na * nb)) else 0.5
  | _, _ => 0.5

/-- `PulseEstimator.update`: weighted sum through the sigmoid, EMA with
coefficient 0.7, then shift the embedding/timestamp history.  Returns the new
state and the returned value `round(tau, 4)`. -/
noncomputable def update (st : PulseState d) (msg : String) (emb : Vec d)
    (timestamp : ℝ) : PulseState d × ℝ :=
  let z := 0.45 * phiL st timestamp + 0.15 * lenFactor msg
      + 0.25 * novelty st emb + 0.15 * dirChange st emb
  let rawTau := 1 / (1 + Real.exp (-z))
  let tau := 0.7 * rawTau + 0.3 * st.tau
  (⟨tau, some timestamp, some emb, st.last_user_emb⟩, roundTo4 tau)

/-- `PulseEstimator.modulate_thresholds` as a function of the current pulse:
`mod = 1.2 − 0.4·τ`, then the four capped scalings, each rounded. -/
noncomputable def modulateThresholds (tau : ℝ) : ℝ × ℝ × ℝ × ℝ :=
  let m := 1.2 - 0.4 * tau
  (roundTo4 (min 0.95 (THETA_SOFT * m)),
   roundTo4 (min 0.98 (THETA_HARD * m)),
   roundTo4 (min 0.98 (POD_THETA_HIGH * m)),
   roundTo4 (max 0.30 (POD_THETA_SOFT * (2 - m))))

/-- `PulseEstimator.reset`. -/
noncomputable def reset (_ : PulseState d) : PulseState d := ⟨0.5, none, none, none⟩

/-- A session of consecutive `update` calls; returns the final state and the
list of returned pulse values. -/
noncomputable def run (st : PulseState d) :
    List (String × Vec d × ℝ) → PulseState d × List ℝ
  | [] => (st, [])
  | (m, e, t) :: rest =>
    let p := update st m e t
    let r := run p.1 rest
    (r.1, p.2 :: r.2)

end Pulse

/-! ## The `DirectionTracker`

State: the nullable sustained-direction vector `tau_dir`; `base_alpha = 0.85`
is a constant that no method ever writes. -/

namespace Direction

/-- `DirectionTracker.update` on the `tau_dir` field: initialize to the
normalized embedding on first observation (left as-is on zero norm),
otherwise EMA with `effective_alpha = 0.85 + 0.15·(1 − τ_h)` and renormalize
(left as-is on zero norm). -/
noncomputable def update (tdir : Option (Vec d)) (userEmb : Vec d) (tauH : ℝ) :
    Option (Vec d) :=
  match tdir with
  | none =>
    let n := nrm userEmb
    some (if 0 < n then n⁻¹ • userEmb else userEmb)
  | some td =>
    let alpha := 0.85 + (1 - 0.85) * (1 - tauH)
    let t1 := alpha • td + (1 - alpha) • userEmb
    let n := nrm t1
    some (if 0 < n then n⁻¹ • t1 else t1)

/-- `DirectionTracker.reset`. -/
def reset (_ : Option (Vec d)) : Option (Vec d) := none

/-- A session of consecutive `update` calls. -/
noncomputable def run (tdir : Option (Vec d)) :
    List (Vec d × ℝ) → Option (Vec d)
  | [] => tdir
  | (e, τ) :: rest => run (update tdir e τ) rest

end Direction

/-! ## The `Pods` registry

The Python dict `s.p` (insertion-ordered, unique keys) is modelled as an
association list. -/

structure Pod (d : ℕ) where
  emb : Vec d
  content : String
  state : String

namespace Pods

/-- `Vessel._detect_pod_adaptive`: iterate over the pods; skip non-latent
pods and zero-norm embeddings (pod or query); a pod matches when
`sim > pod_high` or (`f_score > THETA_HARD` and `sim > pod_soft`) — note the
fixed module constant `THETA_HARD`, not a caller-supplied hard threshold;
keep the strictly best similarity seen so far. -/
noncomputable def detectAdaptive (pods : List (String × Pod d)) (emb : Vec d)
    (fScore podHigh podSoft : ℝ) : Option (String × ℝ × String) :=
  pods.foldl (fun best kv =>
    if kv.2.state ≠ "latent" then best
    else
      let ne := nrm kv.2.emb
      let nemb := nrm emb
      if ne = 0 ∨ nemb = 0 then best
      else
        let sim := dotp emb kv.2.emb / (nemb * ne)
        if podHigh < sim ∨ (THETA_HARD < fScore ∧ podSoft < sim) then
          match best with
          | none => some (kv.1, sim, kv.2.content)
          | some b => if b.2.1 < sim then some (kv.1, sim, kv.2.content) else best
        else best) none

/-- `Pods.unveil`: if the id is present, set its state to `"unveiled"`
(idempotently); otherwise do nothing. -/
def unveil (pods : List (String × Pod d)) (pid : String) : List (String × Pod d) :=
  pods.map fun kv =>
    if kv.1 = pid then (kv.1, ⟨kv.2.emb, kv.2.content, "unveiled"⟩) else kv

end Pods

/-! ## The `RhythmStore`: samples and breathing events -/

structure RhythmSample where
  turn : ℕ
  ts : ℝ
  tau_h : ℝ
  fatigue : ℝ
  fatigue_status : String
  components : List (String × ℝ)
  thresholds : List (String × ℝ)
  events : List String

namespace Rhythm

/-- `RhythmStore.record`: append one sample, rounding the numeric fields. -/
noncomputable def record (samples : List RhythmSample) (turn : ℕ) (ts tauH f : ℝ)
    (status : String) (components thresholds : List (String × ℝ))
    (events : List String) : List RhythmSample :=
  samples ++ [⟨turn, ts, roundTo4 tauH, roundTo4 f, status,
    components.map (fun p => (p.1, roundTo4 p.2)),
    thresholds.map (fun p => (p.1, roundTo4 p.2)), events⟩]

/-- The breathing-event dicts produced by `compute_signature`. -/
inductive BreathingEvent
  | pause (turn : ℕ) (tauDelta : ℝ)
  | acceleration (turn : ℕ) (tauDelta : ℝ)
  | softFatigueOnset (turn : ℕ) (ft : ℝ)
  | hardFatigueOnset (turn : ℕ) (ft : ℝ)
  | tagged (turn : ℕ) (ev : String)

/-- The events contributed by one consecutive pair `(samples[i-1],
samples[i])` of the scan in `compute_signature`, in emission order: the τ_h
delta event, then the fatigue transition event, then the pass-through of
`samples[i]`'s tagged events. -/
noncomputable def pairEvents (prev cur : RhythmSample) : List BreathingEvent :=
  (let dtau := cur.tau_h - prev.tau_h
   if dtau < -0.15 then [.pause cur.turn (roundTo3 dtau)]
   else if 0.15 < dtau then [.acceleration cur.turn (roundTo3 dtau)]
   else [])
  ++ (if cur.fatigue_status = "soft" ∧ prev.fatigue_status = "fresh" then
        [.softFatigueOnset cur.turn cur.fatigue]
      else if cur.fatigue_status = "hard" ∧ prev.fatigue_status ≠ "hard" then
        [.hardFatigueOnset cur.turn cur.fatigue]
      else [])
  ++ cur.events.map (fun ev => .tagged cur.turn ev)

/-- The `breathing_events` list of `compute_signature`: the loop
`for i in range(1, len(samples))` accumulating `pairEvents` of each
consecutive pair. -/
noncomputable def breathingEvents : List RhythmSample → List BreathingEvent
  | [] => []
  | s0 :: rest => go s0 rest
where go : RhythmSample → List RhythmSample → List BreathingEvent
  | _, [] => []
  | p, c :: rest => pairEvents p c ++ go c rest

end Rhythm

/-! ## Concrete two-dimensional vectors used by witnesses and counterexamples -/

theorem dotp_two (a b : Vec 2) : dotp a b = a 0 * b 0 + a 1 * b 1 := by
  unfold dotp
  rw [Fin.sum_univ_two]

theorem nrm_two (a : Vec 2) : nrm a = Real.sqrt (a 0 ^ 2 + a 1 ^ 2) := by
  unfold nrm
  rw [Fin.sum_univ_two]

/-- The unit vector `(1, 0)`. -/
noncomputable def vUnit : Vec 2 := ![1, 0]

theorem nrm_vUnit : nrm vUnit = 1 := by
  rw [nrm_two]
  unfold vUnit
  norm_num

theorem nrm_zero_vec : nrm (0 : Vec d) = 0 := (nrm_eq_zero_iff 0).mpr rfl

theorem sub_self_vec (v : Vec d) : v - v = 0 := by
  funext i
  show v i - v i = 0
  ring

/-! ## Claim C3 -/

/-- C3 (amended): after `k` updates of a fresh `Fatigue()` the embedding
history has length `min(k, 5)` and the velocity history length `min(k−1, 5)`;
each stored velocity is a difference of consecutive input embeddings (both
buffers are the last-5 windows of the inputs and of their pairwise
differences); the invariant `len(v) = len(e) − 1` together with
`v[i] = e[i+1] − e[i]` holds while `k ≤ 5`, not beyond. -/
theorem C3_fatigue_window_invariant (d : ℕ) (es : List (Vec d)) :
    (Fatigue.run es).e = lastN 5 es ∧
    (Fatigue.run es).v = lastN 5 (adjDiffs es) ∧
    (Fatigue.run es).e.length = min 5 es.length ∧
    (Fatigue.run es).v.length = min 5 (es.length - 1) ∧
    (es.length ≤ 5 →
      (Fatigue.run es).e = es ∧
      (Fatigue.run es).v = adjDiffs es ∧
      (Fatigue.run es).v.length = (Fatigue.run es).e.length - 1) := by
  obtain ⟨hle, hlv⟩ := Fatigue.run_lengths es
  rw [Fatigue.run_spec es]
  refine ⟨rfl, rfl, length_lastN 5 es, ?_, ?_⟩
  · rw [length_lastN, length_adjDiffs]
  · intro hlen
    have h1 : lastN 5 es = es := by
      unfold lastN
      rw [Nat.sub_eq_zero_of_le hlen, List.drop_zero]
    have h2 : lastN 5 (adjDiffs es) = adjDiffs es := by
      unfold lastN
      rw [length_adjDiffs, Nat.sub_eq_zero_of_le (by omega), List.drop_zero]
    refine ⟨h1, h2, ?_⟩
    show (lastN 5 (adjDiffs es)).length = (lastN 5 es).length - 1
    rw [h1, h2, length_adjDiffs]

/-- C3 witness: within the first 5 updates the claimed invariant does hold,
here after 2 updates of the unit vector. -/
theorem C3_fatigue_window_invariant_witness :
    (Fatigue.run (List.replicate 2 vUnit)).v.length =
      (Fatigue.run (List.replicate 2 vUnit)).e.length - 1 :=
  ((C3_fatigue_window_invariant 2 (List.replicate 2 vUnit)).2.2.2.2 (by simp)).2.2

/-- C3 counterexample: after 6 updates both histories have length 5, so
`len(velocityHistory) = max(0, len(embeddingHistory) − 1) = 4` fails. -/
theorem C3_fatigue_window_counterexample :
    (Fatigue.run (List.replicate 6 vUnit)).e.length = 5 ∧
    (Fatigue.run (List.replicate 6 vUnit)).v.length = 5 ∧
    ¬((Fatigue.run (List.replicate 6 vUnit)).v.length =
        max 0 ((Fatigue.run (List.replicate 6 vUnit)).e.length - 1)) := by
  obtain ⟨he, hv⟩ := Fatigue.run_lengths (List.replicate 6 vUnit)
  rw [List.length_replicate] at he hv
  rw [show (5:ℕ) ⊓ 6 = 5 by omega] at he
  rw [show (5:ℕ) ⊓ (6-1) = 5 by omega] at hv
  exact ⟨he, hv, by omega⟩

/-! ## Claim C8 -/

/-- C8: after any sequence of updates, `reset()` on the fatigue scorer, the
pulse estimator and the direction tracker restores the exact state of a
freshly constructed instance (empty histories, `τ = 0.5` with no stored
timestamp or embeddings, `tau_dir` unset). -/
theorem C8_reset_restores_fresh_state (d : ℕ) (es : List (Vec d))
    (ps : List (String × Vec d × ℝ)) (ds : List (Vec d × ℝ)) :
    Fatigue.reset (Fatigue.run es) = Fatigue.init d 5 ∧
    Pulse.reset (Pulse.run (Pulse.init d) ps).1 = Pulse.init d ∧
    Direction.reset (Direction.run none ds) = none := by
  refine ⟨?_, rfl, rfl⟩
  rw [Fatigue.run_spec es]
  rfl

/-! ## Claim C9 -/

/-- C9: `unveil` is idempotent, is a state-preserving no-op on an unknown id,
and any entry with the unveiled id ends in state `"unveiled"` while all other
entries are untouched.  (In the model `unveil` is a total function, matching
the source method that raises on no input.) -/
theorem C9_unveil_idempotent_noop (d : ℕ) (pods : List (String × Pod d))
    (pid : String) :
    Pods.unveil (Pods.unveil pods pid) pid = Pods.unveil pods pid ∧
    ((∀ kv ∈ pods, kv.1 ≠ pid) → Pods.unveil pods pid = pods) ∧
    (∀ kv ∈ Pods.unveil pods pid, kv.1 = pid → kv.2.state = "unveiled") ∧
    (∀ kv ∈ pods, kv.1 ≠ pid → kv ∈ Pods.unveil pods pid) := by
  refine ⟨?_, ?_, ?_, ?_⟩
  · unfold Pods.unveil
    rw [List.map_map]
    apply List.map_congr_left
    intro kv _
    by_cases h : kv.1 = pid
    · simp only [Function.comp_apply, if_pos h]
    · simp only [Function.comp_apply, if_neg h, if_neg h]
  · intro hall
    unfold Pods.unveil
    conv_rhs => rw [← List.map_id pods]
    apply List.map_congr_left
    intro kv hkv
    rw [if_neg (hall kv hkv)]
    rfl
  · intro kv hkv hpid
    obtain ⟨kv0, hkv0, hf⟩ := List.mem_map.mp hkv
    by_cases h : kv0.1 = pid
    · rw [if_pos h] at hf
      rw [← hf]
    · rw [if_neg h] at hf
      rw [← hf] at hpid
      exact absurd hpid h
  · intro kv hkv hne
    have h2 := List.mem_map_of_mem
      (fun kv : String × Pod d =>
        if kv.1 = pid then (kv.1, ⟨kv.2.emb, kv.2.content, "unveiled"⟩) else kv) hkv
    simp only [if_neg hne] at h2
    exact h2

/-- C9 witness: unveiling an id absent from a concrete one-pod registry
leaves it unchanged. -/
theorem C9_unveil_idempotent_noop_witness :
    Pods.unveil [("a", (⟨vUnit, "seed", "latent"⟩ : Pod 2))] "b"
      = [("a", (⟨vUnit, "seed", "latent"⟩ : Pod 2))] :=
  (C9_unveil_idempotent_noop 2 [("a", ⟨vUnit, "seed", "latent"⟩)] "b").2.1
    (by
      intro kv hkv
      rw [List.mem_singleton] at hkv
      rw [hkv]
      intro hcontra
      exact absurd hcontra (by decide))

end Vessel

namespace Vessel

/-! ## Claim C7 -/

theorem roundTo4_lit (x : ℝ) (n : ℤ) (h1 : x * 10000 = (n : ℝ))
    (y : ℝ) (h2 : (n : ℝ) / 10000 = y) : roundTo4 x = y := by
  rw [roundTo4_of_eq_int x n h1, h2]

theorem Pulse.modThresholds_zero :
    Pulse.modulateThresholds 0 = (0.816, 0.98, 0.98, 0.4) := by
  unfold Pulse.modulateThresholds THETA_SOFT THETA_HARD POD_THETA_HIGH POD_THETA_SOFT
  dsimp only
  rw [show (0.68 : ℝ) * (1.2 - 0.4 * 0) = 0.816 by norm_num,
    show (0.84 : ℝ) * (1.2 - 0.4 * 0) = 1.008 by norm_num,
    show (0.85 : ℝ) * (1.2 - 0.4 * 0) = 1.02 by norm_num,
    show (0.50 : ℝ) * (2 - (1.2 - 0.4 * 0)) = 0.4 by norm_num,
    min_eq_right (by norm_num : (0.816:ℝ) ≤ 0.95),
    min_eq_left (by norm_num : (0.98:ℝ) ≤ 1.008),
    min_eq_left (by norm_num : (0.98:ℝ) ≤ 1.02),
    max_eq_right (by norm_num : (0.30:ℝ) ≤ 0.4),
    roundTo4_lit 0.816 8160 (by norm_num) 0.816 (by norm_num),
    roundTo4_lit 0.98 9800 (by norm_num) 0.98 (by norm_num),
    roundTo4_lit 0.4 4000 (by norm_num) 0.4 (by norm_num)]

theorem Pulse.modThresholds_one :
    Pulse.modulateThresholds 1 = (0.544, 0.672, 0.68, 0.6) := by
  unfold Pulse.modulateThresholds THETA_SOFT THETA_HARD POD_THETA_HIGH POD_THETA_SOFT
  dsimp only
  rw [show (0.68 : ℝ) * (1.2 - 0.4 * 1) = 0.544 by norm_num,
    show (0.84 : ℝ) * (1.2 - 0.4 * 1) = 0.672 by norm_num,
    show (0.85 : ℝ) * (1.2 - 0.4 * 1) = 0.68 by norm_num,
    show (0.50 : ℝ) * (2 - (1.2 - 0.4 * 1)) = 0.6 by norm_num,
    min_eq_right (by norm_num : (0.544:ℝ) ≤ 0.95),
    min_eq_right (by norm_num : (0.672:ℝ) ≤ 0.98),
    min_eq_right (by norm_num : (0.68:ℝ) ≤ 0.98),
    max_eq_right (by norm_num : (0.30:ℝ) ≤ 0.6),
    roundTo4_lit 0.544 5440 (by norm_num) 0.544 (by norm_num),
    roundTo4_lit 0.672 6720 (by norm_num) 0.672 (by norm_num),
    roundTo4_lit 0.68 6800 (by norm_num) 0.68 (by norm_num),
    roundTo4_lit 0.6 6000 (by norm_num) 0.6 (by norm_num)]

/-- C7: `modulate_thresholds` computes exactly the spec's capped formulas of
`mod = 1.2 − 0.4·τ` (rounded to 4 decimals), is componentwise monotone in τ
(soft/hard/podHigh non-increasing, podSoft non-decreasing), and at `τ = 1`
yields strictly lower soft, hard and podHigh thresholds and a strictly
higher podSoft threshold than at `τ = 0`. -/
theorem C7_modulate_thresholds_monotone :
    (∀ τ : ℝ, Pulse.modulateThresholds τ =
      (roundTo4 (min 0.95 (0.68 * (1.2 - 0.4 * τ))),
       roundTo4 (min 0.98 (0.84 * (1.2 - 0.4 * τ))),
       roundTo4 (min 0.98 (0.85 * (1.2 - 0.4 * τ))),
       roundTo4 (max 0.30 (0.50 * (2 - (1.2 - 0.4 * τ)))))) ∧
    (∀ τ1 τ2 : ℝ, τ1 ≤ τ2 →
      (Pulse.modulateThresholds τ2).1 ≤ (Pulse.modulateThresholds τ1).1 ∧
      (Pulse.modulateThresholds τ2).2.1 ≤ (Pulse.modulateThresholds τ1).2.1 ∧
      (Pulse.modulateThresholds τ2).2.2.1 ≤ (Pulse.modulateThresholds τ1).2.2.1 ∧
      (Pulse.modulateThresholds τ1).2.2.2 ≤ (Pulse.modulateThresholds τ2).2.2.2) ∧
    ((Pulse.modulateThresholds 1).1 < (Pulse.modulateThresholds 0).1 ∧
     (Pulse.modulateThresholds 1).2.1 < (Pulse.modulateThresholds 0).2.1 ∧
     (Pulse.modulateThresholds 1).2.2.1 < (Pulse.modulateThresholds 0).2.2.1 ∧
     (Pulse.modulateThresholds 0).2.2.2 < (Pulse.modulateThresholds 1).2.2.2) := by
  refine ⟨?_, ?_, ?_⟩
  · intro τ
    unfold Pulse.modulateThresholds THETA_SOFT THETA_HARD POD_THETA_HIGH POD_THETA_SOFT
    rfl
  · intro τ1 τ2 h12
    unfold Pulse.modulateThresholds THETA_SOFT THETA_HARD POD_THETA_HIGH POD_THETA_SOFT
    refine ⟨roundTo4_mono (min_le_min le_rfl (by nlinarith)),
      roundTo4_mono (min_le_min le_rfl (by nlinarith)),
      roundTo4_mono (min_le_min le_rfl (by nlinarith)),
      roundTo4_mono (max_le_max le_rfl (by nlinarith))⟩
  · rw [Pulse.modThresholds_zero, Pulse.modThresholds_one]
    norm_num

/-- C7 witness: the monotone part applied at the concrete pulses 0 and 1. -/
theorem C7_modulate_thresholds_monotone_witness :
    (Pulse.modulateThresholds 1).1 ≤ (Pulse.modulateThresholds 0).1 ∧
    (Pulse.modulateThresholds 1).2.1 ≤ (Pulse.modulateThresholds 0).2.1 ∧
    (Pulse.modulateThresholds 1).2.2.1 ≤ (Pulse.modulateThresholds 0).2.2.1 ∧
    (Pulse.modulateThresholds 0).2.2.2 ≤ (Pulse.modulateThresholds 1).2.2.2 :=
  C7_modulate_thresholds_monotone.2.1 0 1 (by norm_num)

/-! ## Claim C4 -/

theorem unit_or_zero_of_normalize (t1 : Vec d) :
    nrm (if 0 < nrm t1 then (nrm t1)⁻¹ • t1 else t1) = 1 ∨
    (if 0 < nrm t1 then (nrm t1)⁻¹ • t1 else t1) = 0 := by
  by_cases hn : 0 < nrm t1
  · left
    rw [if_pos hn, nrm_smul, abs_of_pos (inv_pos.mpr hn),
      inv_mul_cancel₀ (ne_of_gt hn)]
  · right
    rw [if_neg hn]
    exact (nrm_eq_zero_iff t1).mp (le_antisymm (not_lt.mp hn) (nrm_nonneg t1))

theorem Direction.update_unit_or_zero (tdir : Option (Vec d)) (u : Vec d)
    (τ : ℝ) (v : Vec d) (h : Direction.update tdir u τ = some v) :
    nrm v = 1 ∨ v = 0 := by
  cases tdir with
  | none =>
    have hv : v = if 0 < nrm u then (nrm u)⁻¹ • u else u :=
      (Option.some.inj h).symm
    rw [hv]
    exact unit_or_zero_of_normalize u
  | some td =>
    have hv : v =
        (fun t1 => if 0 < nrm t1 then (nrm t1)⁻¹ • t1 else t1)
          ((0.85 + (1 - 0.85) * (1 - τ)) • td
            + (1 - (0.85 + (1 - 0.85) * (1 - τ))) • u) :=
      (Option.some.inj h).symm
    rw [hv]
    exact unit_or_zero_of_normalize _

theorem Direction.run_unit_or_zero (ds : List (Vec d × ℝ)) (tdir : Option (Vec d))
    (hinv : ∀ v, tdir = some v → nrm v = 1 ∨ v = 0) (v : Vec d)
    (h : Direction.run tdir ds = some v) : nrm v = 1 ∨ v = 0 := by
  induction ds generalizing tdir with
  | nil => exact hinv v h
  | cons p rest ih =>
    exact ih (Direction.update tdir p.1 p.2)
      (fun w hw => Direction.update_unit_or_zero tdir p.1 p.2 w hw) h

/-- C4 (amended): after any sequence of `DirectionTracker.update` calls,
once `sustainedDirection` is set it is a unit vector or the zero vector: each
assignment normalizes the stored vector when its norm is positive and stores
it unchanged when the norm is zero, and a zero norm forces the zero vector. -/
theorem C4_direction_unit_or_zero (d : ℕ) (ds : List (Vec d × ℝ)) (v : Vec d)
    (h : Direction.run none ds = some v) : nrm v = 1 ∨ v = 0 :=
  Direction.run_unit_or_zero ds none (fun _ hw => by cases hw) v h

/-- C4 witness: one update with the unit vector leaves a sustained direction
that is a unit vector or zero. -/
theorem C4_direction_unit_or_zero_witness :
    nrm ((nrm vUnit)⁻¹ • vUnit) = 1 ∨ (nrm vUnit)⁻¹ • vUnit = (0 : Vec 2) :=
  C4_direction_unit_or_zero 2 [(vUnit, 0.5)] ((nrm vUnit)⁻¹ • vUnit)
    (by
      show Direction.update none vUnit 0.5 = _
      unfold Direction.update
      dsimp only
      rw [if_pos (show (0:ℝ) < nrm vUnit by rw [nrm_vUnit]; norm_num)])

/-- C4 counterexample: a first update with the zero embedding sets
`sustainedDirection` to the stored zero vector, which is not a unit vector —
the claim fails for arbitrary user embeddings. -/
theorem C4_direction_counterexample :
    Direction.run none [((0 : Vec 2), 0.5)] = some (0 : Vec 2) ∧
    nrm (0 : Vec 2) ≠ 1 := by
  constructor
  · show Direction.update none (0 : Vec 2) 0.5 = some 0
    unfold Direction.update
    dsimp only
    rw [if_neg (show ¬((0:ℝ) < nrm (0 : Vec 2)) by rw [nrm_zero_vec]; norm_num)]
  · rw [nrm_zero_vec]
    norm_num

end Vessel

namespace Vessel

/-! ## Claim C5 -/

namespace Rhythm

/-- Modelled from the spec's breathing-event sentence (as amended): pause on
a τ_h drop by more than 0.15, acceleration on a rise by more than 0.15, soft
onset exactly on a fresh→soft status transition, hard onset on any
transition into hard, then the pass-through of the second sample's tagged
events; the four detections as independent conditions. -/
noncomputable def specPairEvents (prev cur : RhythmSample) : List BreathingEvent :=
  (if cur.tau_h - prev.tau_h < -0.15 then
    [BreathingEvent.pause cur.turn (roundTo3 (cur.tau_h - prev.tau_h))] else [])
  ++ (if 0.15 < cur.tau_h - prev.tau_h then
    [BreathingEvent.acceleration cur.turn (roundTo3 (cur.tau_h - prev.tau_h))] else [])
  ++ (if prev.fatigue_status = "fresh" ∧ cur.fatigue_status = "soft" then
    [BreathingEvent.softFatigueOnset cur.turn cur.fatigue] else [])
  ++ (if prev.fatigue_status ≠ "hard" ∧ cur.fatigue_status = "hard" then
    [BreathingEvent.hardFatigueOnset cur.turn cur.fatigue] else [])
  ++ cur.events.map (fun ev => BreathingEvent.tagged cur.turn ev)

/-- Modelled from the spec's breathing-event sentence (as amended): the
ordered scan over consecutive sample pairs. -/
noncomputable def specBreathing (samples : List RhythmSample) : List BreathingEvent :=
  (samples.zip samples.tail).flatMap fun pc => specPairEvents pc.1 pc.2

end Rhythm

theorem ite_chain_eq_append {α : Type} (p q p1 q1 : Prop) [Decidable p]
    [Decidable q] [Decidable p1] [Decidable q1] (hp : p ↔ p1) (hq : q ↔ q1)
    (hpq : p → ¬q) (x y : List α) :
    (if p then x else if q then y else []) =
      (if p1 then x else []) ++ (if q1 then y else []) := by
  by_cases hcp : p
  · rw [if_pos hcp, if_pos (hp.mp hcp), if_neg (fun hq1 => hpq hcp (hq.mpr hq1))]
    simp
  · rw [if_neg hcp, if_neg (fun hp1 => hcp (hp.mpr hp1)), List.nil_append]
    by_cases hcq : q
    · rw [if_pos hcq, if_pos (hq.mp hcq)]
    · rw [if_neg hcq, if_neg (fun hq1 => hcq (hq.mpr hq1))]

theorem Rhythm.pairEvents_eq_spec (prev cur : RhythmSample) :
    Rhythm.pairEvents prev cur = Rhythm.specPairEvents prev cur := by
  unfold Rhythm.pairEvents Rhythm.specPairEvents
  rw [ite_chain_eq_append (cur.tau_h - prev.tau_h < -0.15)
      (0.15 < cur.tau_h - prev.tau_h) (cur.tau_h - prev.tau_h < -0.15)
      (0.15 < cur.tau_h - prev.tau_h) Iff.rfl Iff.rfl
      (fun h1 h2 => by linarith) _ _,
    ite_chain_eq_append
      (cur.fatigue_status = "soft" ∧ prev.fatigue_status = "fresh")
      (cur.fatigue_status = "hard" ∧ prev.fatigue_status ≠ "hard")
      (prev.fatigue_status = "fresh" ∧ cur.fatigue_status = "soft")
      (prev.fatigue_status ≠ "hard" ∧ cur.fatigue_status = "hard")
      and_comm and_comm
      (fun h1 h2 => by
        rw [h1.1] at h2
        exact absurd h2.1 (by decide)) _ _]
  simp [List.append_assoc]

theorem Rhythm.breathingEvents_go_eq (p : RhythmSample) (l : List RhythmSample) :
    Rhythm.breathingEvents.go p l =
      ((p :: l).zip l).flatMap fun pc => Rhythm.pairEvents pc.1 pc.2 := by
  induction l generalizing p with
  | nil => rfl
  | cons c rest ih =>
    show Rhythm.pairEvents p c ++ Rhythm.breathingEvents.go c rest = _
    rw [ih c]
    rfl

/-- C5 (amended): the breathing-event list is exactly the ordered scan over
consecutive sample pairs — pause on a τ_h drop by more than 0.15,
acceleration on a rise by more than 0.15, soft onset exactly on fresh→soft,
hard onset on any transition into hard, plus the pass-through of each
sample's tagged events except the first sample's (the scan starts at the
second sample). -/
theorem C5_breathing_events_scan (samples : List RhythmSample) :
    Rhythm.breathingEvents samples = Rhythm.specBreathing samples := by
  cases samples with
  | nil => rfl
  | cons s0 rest =>
    show Rhythm.breathingEvents.go s0 rest = _
    rw [Rhythm.breathingEvents_go_eq]
    unfold Rhythm.specBreathing
    have hfun : (fun pc : RhythmSample × RhythmSample =>
        Rhythm.pairEvents pc.1 pc.2) =
        fun pc => Rhythm.specPairEvents pc.1 pc.2 :=
      funext fun pc => Rhythm.pairEvents_eq_spec pc.1 pc.2
    rw [← hfun]
    rfl

/-- First concrete sample of the C5 counterexample: carries the externally
tagged event `"x"`. -/
noncomputable def cexSample1 : RhythmSample := ⟨1, 0, 0.5, 0, "fresh", [], [], ["x"]⟩

/-- Second concrete sample of the C5 counterexample: same τ_h, same status,
no tagged events. -/
noncomputable def cexSample2 : RhythmSample := ⟨2, 1, 0.5, 0, "fresh", [], [], []⟩

/-- C5 counterexample: the first sample's tagged event `"x"` never appears —
the scan starts at the second sample, so the breathing-event list is empty,
refuting the claimed pass-through of the first sample's events. -/
theorem C5_breathing_events_counterexample :
    cexSample1.events = ["x"] ∧
    Rhythm.breathingEvents [cexSample1, cexSample2] = [] := by
  refine ⟨rfl, ?_⟩
  show Rhythm.pairEvents cexSample1 cexSample2 ++ [] = []
  rw [List.append_nil]
  unfold Rhythm.pairEvents cexSample1 cexSample2
  dsimp only
  rw [if_neg (by norm_num : ¬((0.5:ℝ) - 0.5 < -0.15)),
    if_neg (by norm_num : ¬((0.15:ℝ) < 0.5 - 0.5)),
    if_neg (by decide : ¬(("fresh":String) = "soft" ∧ ("fresh":String) = "fresh")),
    if_neg (by decide : ¬(("fresh":String) = "hard" ∧ ("fresh":String) ≠ "hard"))]
  simp

end Vessel

namespace Vessel

/-! ## Claim C2 -/

/-- Cosine similarity as computed in `_detect_pod_adaptive`:
`np.dot(emb, e) / (nemb * ne)`. -/
noncomputable def cosSim (emb e : Vec d) : ℝ := dotp emb e / (nrm emb * nrm e)

namespace Pods

/-- The loop body of `_detect_pod_adaptive` for one pod entry. -/
noncomputable def detectStep (emb : Vec d) (fScore podHigh podSoft : ℝ)
    (best : Option (String × ℝ × String)) (kv : String × Pod d) :
    Option (String × ℝ × String) :=
  if kv.2.state ≠ "latent" then best
  else
    let ne := nrm kv.2.emb
    let nemb := nrm emb
    if ne = 0 ∨ nemb = 0 then best
    else
      let sim := dotp emb kv.2.emb / (nemb * ne)
      if podHigh < sim ∨ (THETA_HARD < fScore ∧ podSoft < sim) then
        match best with
        | none => some (kv.1, sim, kv.2.content)
        | some b => if b.2.1 < sim then some (kv.1, sim, kv.2.content) else best
      else best

theorem detectAdaptive_eq_foldl (pods : List (String × Pod d)) (emb : Vec d)
    (fScore podHigh podSoft : ℝ) :
    detectAdaptive pods emb fScore podHigh podSoft =
      pods.foldl (detectStep emb fScore podHigh podSoft) none := rfl

/-- When a pod participates in the adaptive detection: latent state, neither
norm zero, and the threshold condition with the fixed module constant
`THETA_HARD`. -/
noncomputable def matchCond (emb : Vec d) (fScore podHigh podSoft : ℝ)
    (kv : String × Pod d) : Prop :=
  kv.2.state = "latent" ∧ ¬(nrm kv.2.emb = 0 ∨ nrm emb = 0) ∧
    (podHigh < cosSim emb kv.2.emb ∨
      (THETA_HARD < fScore ∧ podSoft < cosSim emb kv.2.emb))

theorem detectStep_eq_none_iff (emb : Vec d) (f ph ps : ℝ)
    (best : Option (String × ℝ × String)) (kv : String × Pod d) :
    detectStep emb f ph ps best kv = none ↔
      best = none ∧ ¬matchCond emb f ph ps kv := by
  unfold detectStep matchCond cosSim
  cases best with
  | some b =>
    dsimp only
    split_ifs <;> simp
  | none =>
    dsimp only
    split_ifs with h1 h2 h3 <;> simp_all

theorem detectStep_some (emb : Vec d) (f ph ps : ℝ)
    (best : Option (String × ℝ × String)) (kv : String × Pod d)
    (b1 : String × ℝ × String)
    (h : detectStep emb f ph ps best kv = some b1) :
    (best = some b1 ∨ (matchCond emb f ph ps kv ∧
        b1 = (kv.1, cosSim emb kv.2.emb, kv.2.content))) ∧
    (matchCond emb f ph ps kv → cosSim emb kv.2.emb ≤ b1.2.1) ∧
    (∀ b0, best = some b0 → b0.2.1 ≤ b1.2.1) := by
  unfold detectStep at h
  by_cases h1 : kv.2.state ≠ "latent"
  · rw [if_pos h1] at h
    have hnm : ¬matchCond emb f ph ps kv := fun hm => h1 hm.1
    refine ⟨Or.inl h, fun hm => absurd hm hnm, ?_⟩
    intro b0 hb0
    rw [hb0] at h
    rw [Option.some.inj h]
  · rw [if_neg h1] at h
    dsimp only at h
    by_cases h2 : nrm kv.2.emb = 0 ∨ nrm emb = 0
    · rw [if_pos h2] at h
      have hnm : ¬matchCond emb f ph ps kv := fun hm => hm.2.1 h2
      refine ⟨Or.inl h, fun hm => absurd hm hnm, ?_⟩
      intro b0 hb0
      rw [hb0] at h
      rw [Option.some.inj h]
    · rw [if_neg h2] at h
      by_cases h3 : ph < dotp emb kv.2.emb / (nrm emb * nrm kv.2.emb) ∨
          (THETA_HARD < f ∧ ps < dotp emb kv.2.emb / (nrm emb * nrm kv.2.emb))
      · rw [if_pos h3] at h
        have hm : matchCond emb f ph ps kv := ⟨not_not.mp h1, h2, h3⟩
        cases best with
        | none =>
          have hb1 : b1 = (kv.1, dotp emb kv.2.emb / (nrm emb * nrm kv.2.emb),
              kv.2.content) := (Option.some.inj h).symm
          refine ⟨Or.inr ⟨hm, hb1⟩, fun _ => ?_, fun b0 hb0 => by cases hb0⟩
          rw [hb1]
          exact le_of_eq rfl
        | some b =>
          dsimp only at h
          by_cases h4 : b.2.1 < dotp emb kv.2.emb / (nrm emb * nrm kv.2.emb)
          · rw [if_pos h4] at h
            have hb1 : b1 = (kv.1, dotp emb kv.2.emb / (nrm emb * nrm kv.2.emb),
                kv.2.content) := (Option.some.inj h).symm
            refine ⟨Or.inr ⟨hm, hb1⟩, fun _ => ?_, fun b0 hb0 => ?_⟩
            · rw [hb1]
              exact le_of_eq rfl
            · have hbb : b = b0 := Option.some.inj hb0
              rw [← hbb, hb1]
              exact le_of_lt h4
          · rw [if_neg h4] at h
            refine ⟨Or.inl h, fun _ => ?_, fun b0 hb0 => ?_⟩
            · rw [← Option.some.inj h]
              exact not_lt.mp h4
            · rw [← Option.some.inj h]
              rw [Option.some.inj hb0.symm]
      · rw [if_neg h3] at h
        have hnm : ¬matchCond emb f ph ps kv := fun hm => h3 hm.2.2
        refine ⟨Or.inl h, fun hm => absurd hm hnm, ?_⟩
        intro b0 hb0
        rw [hb0] at h
        rw [Option.some.inj h]

theorem detectStep_some_of_some (emb : Vec d) (f ph ps : ℝ)
    (b0 : String × ℝ × String) (kv : String × Pod d) :
    ∃ b1, detectStep emb f ph ps (some b0) kv = some b1 ∧ b0.2.1 ≤ b1.2.1 := by
  cases hstep : detectStep emb f ph ps (some b0) kv with
  | none =>
    obtain ⟨hc, _⟩ := (detectStep_eq_none_iff emb f ph ps (some b0) kv).mp hstep
    cases hc
  | some b1 =>
    exact ⟨b1, rfl, (detectStep_some emb f ph ps (some b0) kv b1 hstep).2.2 b0 rfl⟩

theorem foldl_detect_none_iff (emb : Vec d) (f ph ps : ℝ)
    (l : List (String × Pod d)) :
    ∀ acc, l.foldl (detectStep emb f ph ps) acc = none ↔
      acc = none ∧ ∀ kv ∈ l, ¬matchCond emb f ph ps kv := by
  induction l with
  | nil => intro acc; simp
  | cons kv rest ih =>
    intro acc
    rw [List.foldl_cons, ih]
    constructor
    · rintro ⟨hstep, hrest⟩
      obtain ⟨hacc, hkv⟩ := (detectStep_eq_none_iff emb f ph ps acc kv).mp hstep
      refine ⟨hacc, ?_⟩
      intro kv2 hkv2
      rcases List.mem_cons.mp hkv2 with h | h
      · rw [h]; exact hkv
      · exact hrest kv2 h
    · rintro ⟨hacc, hall⟩
      refine ⟨(detectStep_eq_none_iff emb f ph ps acc kv).mpr
        ⟨hacc, hall kv (List.mem_cons_self kv rest)⟩, ?_⟩
      intro kv2 hkv2
      exact hall kv2 (List.mem_cons_of_mem kv hkv2)

theorem foldl_detect_some (emb : Vec d) (f ph ps : ℝ)
    (l : List (String × Pod d)) :
    ∀ acc b, l.foldl (detectStep emb f ph ps) acc = some b →
      ((acc = some b ∨ ∃ kv ∈ l, matchCond emb f ph ps kv ∧
          b = (kv.1, cosSim emb kv.2.emb, kv.2.content)) ∧
       (∀ kv ∈ l, matchCond emb f ph ps kv → cosSim emb kv.2.emb ≤ b.2.1) ∧
       (∀ b0, acc = some b0 → b0.2.1 ≤ b.2.1)) := by
  induction l with
  | nil =>
    intro acc b h
    refine ⟨Or.inl h, by simp, ?_⟩
    intro b0 hb0
    rw [hb0] at h
    rw [Option.some.inj h]
  | cons kv rest ih =>
    intro acc b h
    rw [List.foldl_cons] at h
    obtain ⟨ih1, ih2, ih3⟩ := ih (detectStep emb f ph ps acc kv) b h
    have hstep_some : ∀ b1, detectStep emb f ph ps acc kv = some b1 →
        b1.2.1 ≤ b.2.1 := ih3
    refine ⟨?_, ?_, ?_⟩
    · rcases ih1 with hacc | ⟨kv2, hkv2, hm, hb⟩
      · obtain ⟨h1, _, _⟩ := detectStep_some emb f ph ps acc kv b hacc
        rcases h1 with h1 | ⟨hm, hb⟩
        · exact Or.inl h1
        · exact Or.inr ⟨kv, List.mem_cons_self kv rest, hm, hb⟩
      · exact Or.inr ⟨kv2, List.mem_cons_of_mem kv hkv2, hm, hb⟩
    · intro kv2 hkv2 hm2
      rcases List.mem_cons.mp hkv2 with hh | hh
      · subst hh
        cases hacc' : detectStep emb f ph ps acc kv2 with
        | none =>
          obtain ⟨_, hnm⟩ := (detectStep_eq_none_iff emb f ph ps acc kv2).mp hacc'
          exact absurd hm2 hnm
        | some b1 =>
          have hle := (detectStep_some emb f ph ps acc kv2 b1 hacc').2.1 hm2
          exact le_trans hle (hstep_some b1 hacc')
      · exact ih2 kv2 hh hm2
    · intro b0 hb0
      rw [hb0] at hstep_some
      obtain ⟨b1, hb1, hle⟩ := detectStep_some_of_some emb f ph ps b0 kv
      exact le_trans hle (hstep_some b1 hb1)

end Pods

/-- C2 (amended): adaptive pod detection considers exactly the latent pods
with nonzero-norm seed embeddings against a nonzero-norm query; a pod
matches iff its cosine similarity exceeds `podHighθ`, or the fatigue score
exceeds the fixed module constant `THETA_HARD = 0.84` (a passed hard
threshold is not consulted) and the similarity exceeds `podSoftθ`; the
result is `None` iff no pod matches, and any returned `(id, similarity,
content)` is a matching pod of the registry whose similarity is maximal
among all matching pods. -/
theorem C2_pod_detection_characterization (d : ℕ)
    (pods : List (String × Pod d)) (emb : Vec d) (fScore podHigh podSoft : ℝ) :
    (Pods.detectAdaptive pods emb fScore podHigh podSoft = none ↔
      ∀ kv ∈ pods, ¬Pods.matchCond emb fScore podHigh podSoft kv) ∧
    (∀ k sim c,
      Pods.detectAdaptive pods emb fScore podHigh podSoft = some (k, sim, c) →
      ∃ p : Pod d, (k, p) ∈ pods ∧
        Pods.matchCond emb fScore podHigh podSoft (k, p) ∧
        sim = cosSim emb p.emb ∧ c = p.content ∧
        ∀ kv ∈ pods, Pods.matchCond emb fScore podHigh podSoft kv →
          cosSim emb kv.2.emb ≤ sim) := by
  constructor
  · rw [Pods.detectAdaptive_eq_foldl, Pods.foldl_detect_none_iff]
    simp
  · intro k sim c h
    rw [Pods.detectAdaptive_eq_foldl] at h
    obtain ⟨h1, h2, _⟩ := Pods.foldl_detect_some emb fScore podHigh podSoft
      pods none (k, sim, c) h
    rcases h1 with hcontra | ⟨kv, hkv, hm, hb⟩
    · cases hcontra
    · obtain ⟨hk, hsim, hc⟩ : k = kv.1 ∧ sim = cosSim emb kv.2.emb ∧
          c = kv.2.content := by
        refine ⟨congrArg Prod.fst hb, ?_, ?_⟩
        · exact congrArg (fun x => x.2.1) hb
        · exact congrArg (fun x => x.2.2) hb
      refine ⟨kv.2, ?_, ?_, hsim, hc, ?_⟩
      · rw [hk]
        exact hkv
      · rw [hk]
        exact hm
      · intro kv2 hkv2 hm2
        rw [show (k, sim, c).2.1 = sim from rfl] at h2
        exact h2 kv2 hkv2 hm2

/-- C2 witness: on an empty registry, adaptive detection returns `None`. -/
theorem C2_pod_detection_characterization_witness :
    Pods.detectAdaptive ([] : List (String × Pod 2)) vUnit 0.9 0.85 0.5 = none :=
  (C2_pod_detection_characterization 2 [] vUnit 0.9 0.85 0.5).1.mpr (by simp)

end Vessel

namespace Vessel

/-- The concrete pod of the C2 counterexample: seed embedding `(3, 4)`
(norm 5), latent. -/
noncomputable def cexPod : Pod 2 := ⟨![3, 4], "seed", "latent"⟩

theorem nrm_cexPod : nrm cexPod.emb = 5 := by
  unfold cexPod
  rw [nrm_two]
  simp only [Matrix.cons_val_zero, Matrix.cons_val_one, Matrix.head_cons]
  rw [show (3:ℝ)^2 + 4^2 = 5^2 by norm_num, Real.sqrt_sq (by norm_num)]

theorem dotp_vUnit_cexPod : dotp vUnit cexPod.emb = 3 := by
  unfold cexPod vUnit
  rw [dotp_two]
  simp only [Matrix.cons_val_zero, Matrix.cons_val_one, Matrix.head_cons]
  norm_num

theorem cosSim_vUnit_cexPod : cosSim vUnit cexPod.emb = 0.6 := by
  unfold cosSim
  rw [dotp_vUnit_cexPod, nrm_vUnit, nrm_cexPod]
  norm_num

/-- Modelled from the claim's wording: a pod matches when its similarity
exceeds `podHighθ`, or the fatigue score exceeds the PASSED `hardθ` and the
similarity exceeds `podSoftθ`. -/
def claimPodMatches (sim fScore podHigh podSoft hard : ℝ) : Prop :=
  podHigh < sim ∨ (hard < fScore ∧ podSoft < sim)

/-- C2 counterexample: fatigue 0.7 with a passed hard threshold of 0.65 and
similarity 0.6 over `podSoftθ = 0.5`: the claim's match predicate holds for
the latent nonzero pod, yet the code returns `None` because it compares the
fatigue against the fixed `THETA_HARD = 0.84`, not the passed threshold. -/
theorem C2_pod_detection_counterexample :
    Pods.detectAdaptive [("p1", cexPod)] vUnit 0.7 0.9 0.5 = none ∧
    cexPod.state = "latent" ∧ nrm cexPod.emb ≠ 0 ∧ nrm vUnit ≠ 0 ∧
    claimPodMatches (cosSim vUnit cexPod.emb) 0.7 0.9 0.5 0.65 := by
  refine ⟨?_, rfl, by rw [nrm_cexPod]; norm_num, by rw [nrm_vUnit]; norm_num, ?_⟩
  · rw [Pods.detectAdaptive_eq_foldl, Pods.foldl_detect_none_iff]
    refine ⟨rfl, ?_⟩
    intro kv hkv
    rw [List.mem_singleton] at hkv
    subst hkv
    intro hm
    unfold Pods.matchCond at hm
    have h3 := hm.2.2
    dsimp only at h3
    rw [cosSim_vUnit_cexPod] at h3
    unfold THETA_HARD at h3
    rcases h3 with h | h
    · norm_num at h
    · norm_num at h
  · unfold claimPodMatches
    rw [cosSim_vUnit_cexPod]
    exact Or.inr (by norm_num)

end Vessel

namespace Vessel

/-! ## Claim C10 -/

theorem roundTo4_mem_unit {y : ℝ} (hy0 : 0 ≤ y) (hy1 : y ≤ 1) :
    0 ≤ roundTo4 y ∧ roundTo4 y ≤ 1 := by
  have h0 : roundTo4 0 = 0 := roundTo4_lit 0 0 (by norm_num) 0 (by norm_num)
  have h1 : roundTo4 1 = 1 := roundTo4_lit 1 10000 (by norm_num) 1 (by norm_num)
  exact ⟨h0 ▸ roundTo4_mono hy0, h1 ▸ roundTo4_mono hy1⟩

theorem Fatigue.dpVal_short (v : List (Vec d)) (h : v.length < 2) :
    Fatigue.dpVal v = 0 := by
  have hlen : v.reverse.length < 2 := by rw [List.length_reverse]; exact h
  unfold Fatigue.dpVal
  rcases hrev : v.reverse with _ | ⟨b, _ | ⟨a, t⟩⟩
  · rfl
  · rfl
  · rw [hrev] at hlen
    simp only [List.length_cons] at hlen
    omega

theorem Fatigue.dpVal_zero_norm (l : List (Vec d)) (a b : Vec d)
    (h : nrm a = 0 ∨ nrm b = 0) : Fatigue.dpVal (l ++ [a, b]) = 0 := by
  unfold Fatigue.dpVal
  rw [show (l ++ [a, b]).reverse = b :: a :: l.reverse by simp]
  dsimp only
  rw [if_neg]
  rintro ⟨ha, hb⟩
  rcases h with h | h
  · rw [h] at ha
    exact lt_irrefl 0 ha
  · rw [h] at hb
    exact lt_irrefl 0 hb

theorem Fatigue.ccVal_short (v : List (Vec d)) (h : v.length < 3) :
    Fatigue.ccVal v = 0 := by
  have hlen : v.reverse.length < 3 := by rw [List.length_reverse]; exact h
  unfold Fatigue.ccVal
  rcases hrev : v.reverse with _ | ⟨c, _ | ⟨b, _ | ⟨a, t⟩⟩⟩
  · rfl
  · rfl
  · rfl
  · rw [hrev] at hlen
    simp only [List.length_cons] at hlen
    omega

theorem Fatigue.ccVal_zero_denom (l : List (Vec d)) (a b c : Vec d)
    (h : nrm (b - a) = 0) : Fatigue.ccVal (l ++ [a, b, c]) = 0 := by
  unfold Fatigue.ccVal
  rw [show (l ++ [a, b, c]).reverse = c :: b :: a :: l.reverse by simp]
  dsimp only
  rw [if_neg]
  intro hpos
  rw [h] at hpos
  norm_num at hpos

theorem Fatigue.scVal_short (rows : List (Vec 2)) (h : rows.length < 2) :
    Fatigue.scVal rows = 0 := by
  unfold Fatigue.scVal
  rw [if_pos h]

theorem Fatigue.scoreWith_bounds (st : FatigueState d) (sc : ℝ) :
    0 ≤ (Fatigue.scoreWith st sc).1 ∧ (Fatigue.scoreWith st sc).1 ≤ 1 := by
  unfold Fatigue.scoreWith
  by_cases h : st.e.length < 2
  · rw [if_pos h]
    norm_num
  · rw [if_neg h]
    dsimp only
    exact roundTo4_mem_unit (le_max_left 0 _)
      (max_le (by norm_num) (min_le_left 1 _))

/-- C10: scoring is a total function of the history state — with any value
of the spectral sub-score (the SVD result), the returned fatigue lies in
[0, 1]; too-short histories and zero norms make `dp`, `cc` and `sc` return
the neutral 0 rather than failing.  (The `try/except` around the SVD maps to
totality of the model; its fallback value 0 is the `sc = 0` case here.) -/
theorem C10_score_total_and_bounded (d : ℕ) (st : FatigueState d) (sc : ℝ) :
    (0 ≤ (Fatigue.scoreWith st sc).1 ∧ (Fatigue.scoreWith st sc).1 ≤ 1) ∧
    (∀ st2 : FatigueState 2,
      0 ≤ (Fatigue.score st2).1 ∧ (Fatigue.score st2).1 ≤ 1) ∧
    (∀ v : List (Vec d), v.length < 2 → Fatigue.dpVal v = 0) ∧
    (∀ (l : List (Vec d)) (a b : Vec d), nrm a = 0 ∨ nrm b = 0 →
      Fatigue.dpVal (l ++ [a, b]) = 0) ∧
    (∀ v : List (Vec d), v.length < 3 → Fatigue.ccVal v = 0) ∧
    (∀ (l : List (Vec d)) (a b c : Vec d), nrm (b - a) = 0 →
      Fatigue.ccVal (l ++ [a, b, c]) = 0) ∧
    (∀ rows : List (Vec 2), rows.length < 2 → Fatigue.scVal rows = 0) := by
  refine ⟨Fatigue.scoreWith_bounds st sc,
    fun st2 => Fatigue.scoreWith_bounds st2 _,
    fun v h => Fatigue.dpVal_short v h,
    fun l a b h => Fatigue.dpVal_zero_norm l a b h,
    fun v h => Fatigue.ccVal_short v h,
    fun l a b c h => Fatigue.ccVal_zero_denom l a b c h,
    fun rows h => Fatigue.scVal_short rows h⟩

/-- C10 witness: the degenerate branches at concrete empty and zero-vector
histories, via the theorem at a concrete state. -/
theorem C10_score_total_and_bounded_witness :
    Fatigue.dpVal ([] : List (Vec 2)) = 0 ∧
    Fatigue.dpVal ([] ++ [(0 : Vec 2), 0]) = 0 ∧
    Fatigue.ccVal ([] ++ [(0 : Vec 2), 0, 0]) = 0 ∧
    Fatigue.scVal ([vUnit] : List (Vec 2)) = 0 := by
  obtain ⟨_, _, hdp, hdpz, _, hccz, hsc⟩ :=
    C10_score_total_and_bounded 2 (Fatigue.init 2 5) 0
  exact ⟨hdp [] (by norm_num), hdpz [] 0 0 (Or.inl nrm_zero_vec),
    hccz [] 0 0 0 (by rw [sub_self_vec]; exact nrm_zero_vec),
    hsc [vUnit] (by norm_num)⟩

end Vessel

namespace Vessel

/-! ## Claim C1 -/

theorem zipWith_sub_replicate (v : Vec d) :
    ∀ n m : ℕ, List.zipWith (fun x y => x - y) (List.replicate n v)
      (List.replicate m v) = List.replicate (min n m) (0 : Vec d) := by
  intro n
  induction n with
  | zero => intro m; simp
  | succ k ih =>
    intro m
    cases m with
    | zero => simp
    | succ m2 =>
      show (v - v) :: List.zipWith _ (List.replicate k v) (List.replicate m2 v)
          = List.replicate (min (k + 1) (m2 + 1)) (0 : Vec d)
      rw [ih m2, sub_self_vec, show min (k + 1) (m2 + 1) = min k m2 + 1 by omega]
      rfl

theorem adjDiffs_replicate (v : Vec d) (n : ℕ) :
    adjDiffs (List.replicate n v) = List.replicate (n - 1) (0 : Vec d) := by
  unfold adjDiffs
  rw [List.tail_replicate, zipWith_sub_replicate v (n - 1) n,
    show min (n - 1) n = n - 1 by omega]

theorem lastN_replicate (k n : ℕ) (x : α) :
    lastN k (List.replicate n x) = List.replicate (min k n) x := by
  unfold lastN
  rw [List.length_replicate, List.drop_replicate,
    show n - (n - k) = min k n by omega]

theorem Fatigue.run_replicate (v : Vec d) (n : ℕ) :
    Fatigue.run (List.replicate n v) =
      ⟨5, List.replicate (min 5 n) v, List.replicate (min 5 (n - 1)) (0 : Vec d)⟩ := by
  rw [Fatigue.run_spec, adjDiffs_replicate, lastN_replicate, lastN_replicate]

theorem Fatigue.dpVal_replicate_zero (k : ℕ) :
    Fatigue.dpVal (List.replicate k (0 : Vec d)) = 0 := by
  rcases lt_or_le k 2 with h | h
  · exact Fatigue.dpVal_short _ (by rw [List.length_replicate]; omega)
  · obtain ⟨k2, rfl⟩ : ∃ k2, k = k2 + 2 := ⟨k - 2, by omega⟩
    rw [show List.replicate (k2 + 2) (0 : Vec d)
        = List.replicate k2 0 ++ [0, 0] from by rw [List.replicate_add]; rfl]
    exact Fatigue.dpVal_zero_norm _ 0 0 (Or.inl nrm_zero_vec)

end Vessel

namespace Vessel

theorem Fatigue.ccVal_replicate_zero (k : ℕ) :
    Fatigue.ccVal (List.replicate k (0 : Vec d)) = 0 := by
  rcases lt_or_le k 3 with h | h
  · exact Fatigue.ccVal_short _ (by rw [List.length_replicate]; omega)
  · obtain ⟨k2, rfl⟩ : ∃ k2, k = k2 + 3 := ⟨k - 3, by omega⟩
    rw [show List.replicate (k2 + 3) (0 : Vec d)
        = List.replicate k2 0 ++ [0, 0, 0] from by rw [List.replicate_add]; rfl]
    exact Fatigue.ccVal_zero_denom _ 0 0 0 (by rw [sub_self_vec]; exact nrm_zero_vec)

theorem Fatigue.gram_replicate (x y : ℝ) (m : ℕ) :
    Fatigue.gramA (List.replicate m (![x, y] : Vec 2)) = m * x ^ 2 ∧
    Fatigue.gramB (List.replicate m (![x, y] : Vec 2)) = m * (x * y) ∧
    Fatigue.gramC (List.replicate m (![x, y] : Vec 2)) = m * y ^ 2 := by
  unfold Fatigue.gramA Fatigue.gramB Fatigue.gramC
  rw [List.map_replicate, List.map_replicate, List.map_replicate,
    List.sum_replicate, List.sum_replicate, List.sum_replicate]
  simp only [Matrix.cons_val_zero, Matrix.cons_val_one, Matrix.head_cons,
    nsmul_eq_mul]
  exact ⟨trivial, trivial, trivial⟩

theorem Fatigue.svdVals2_replicate_unit (x y : ℝ) (hunit : x ^ 2 + y ^ 2 = 1)
    (m : ℕ) :
    Fatigue.svdVals2 (List.replicate m (![x, y] : Vec 2))
      = [Real.sqrt m, 0] := by
  obtain ⟨ha, hb, hc⟩ := Fatigue.gram_replicate x y m
  unfold Fatigue.svdVals2
  rw [ha, hb, hc]
  dsimp only
  have hm0 : (0:ℝ) ≤ (m:ℝ) := Nat.cast_nonneg m
  have hdisc : ((m:ℝ) * x ^ 2 - m * y ^ 2) ^ 2 + 4 * (m * (x * y)) ^ 2
      = ((m:ℝ)) ^ 2 := by
    have hexp : ((m:ℝ) * x ^ 2 - m * y ^ 2) ^ 2 + 4 * (m * (x * y)) ^ 2
        = (m:ℝ) ^ 2 * (x ^ 2 + y ^ 2) ^ 2 := by ring
    rw [hexp, hunit]
    ring
  rw [hdisc, Real.sqrt_sq hm0]
  have hsum : (m:ℝ) * x ^ 2 + m * y ^ 2 = (m:ℝ) := by
    have : (m:ℝ) * x ^ 2 + m * y ^ 2 = (m:ℝ) * (x ^ 2 + y ^ 2) := by ring
    rw [this, hunit, mul_one]
  rw [hsum]
  rw [show ((m:ℝ) + m) / 2 = (m:ℝ) by ring, show ((m:ℝ) - m) / 2 = 0 by ring,
    Real.sqrt_zero]

theorem Fatigue.scVal_replicate_unit (x y : ℝ) (hunit : x ^ 2 + y ^ 2 = 1)
    (m : ℕ) (hm : 2 ≤ m) :
    Fatigue.scVal (List.replicate m (![x, y] : Vec 2)) = 1 := by
  unfold Fatigue.scVal
  rw [if_neg (by rw [List.length_replicate]; omega)]
  dsimp only
  rw [Fatigue.svdVals2_replicate_unit x y hunit m]
  have hs : (0:ℝ) < Real.sqrt m := Real.sqrt_pos.mpr (by
    have : (2:ℝ) ≤ (m:ℝ) := by exact_mod_cast hm
    linarith)
  have hsum : ([Real.sqrt m, 0] : List ℝ).sum = Real.sqrt m := by simp
  rw [show ([Real.sqrt m, 0] : List ℝ).take 3 = [Real.sqrt m, 0] from rfl, hsum]
  rw [if_pos hs]
  exact div_self (ne_of_gt hs)

/-- Scoring after `n ≥ 2` identical updates of a unit embedding: the
velocities are all zero, so `dp = 0` and `cc = 0` (their zero-norm guards),
`sc = 1` (rank-one history), and the fatigue is the constant
`0.35 = clamp(0.35·0 + 0.35·1 + 0.3·0)` with status `"fresh"`. -/
theorem Fatigue.score_replicate_unit (x y : ℝ) (hunit : x ^ 2 + y ^ 2 = 1)
    (n : ℕ) (hn : 2 ≤ n) :
    Fatigue.score (Fatigue.run (List.replicate n (![x, y] : Vec 2)))
      = (0.35, some (0, 1, 0), "fresh") := by
  rw [Fatigue.run_replicate]
  unfold Fatigue.score Fatigue.scoreWith
  dsimp only
  rw [if_neg (by rw [List.length_replicate]; omega)]
  rw [Fatigue.scVal_replicate_unit x y hunit (min 5 n) (by omega),
    Fatigue.dpVal_replicate_zero, Fatigue.ccVal_replicate_zero]
  rw [show max 0 (min 1 (0.35 * 0 + 0.35 * 1 + 0.3 * 0)) = (0.35 : ℝ) by norm_num]
  rw [if_neg (by unfold THETA_HARD; norm_num), if_neg (by unfold THETA_SOFT; norm_num)]
  rw [roundTo4_lit 0.35 3500 (by norm_num) 0.35 (by norm_num),
    roundTo4_lit 0 0 (by norm_num) 0 (by norm_num),
    roundTo4_lit 1 10000 (by norm_num) 1 (by norm_num)]

end Vessel

namespace Vessel

theorem Fatigue.scoreWith_replicate_bound (d : ℕ) (v : Vec d) (n : ℕ)
    (hn : 2 ≤ n) (sc : ℝ) (hsc0 : 0 ≤ sc) (hsc1 : sc ≤ 1) :
    (Fatigue.scoreWith (Fatigue.run (List.replicate n v)) sc).1 ≤ 0.35 ∧
    (Fatigue.scoreWith (Fatigue.run (List.replicate n v)) sc).2.2 = "fresh" := by
  rw [Fatigue.run_replicate]
  unfold Fatigue.scoreWith
  dsimp only
  rw [if_neg (by rw [List.length_replicate]; omega),
    Fatigue.dpVal_replicate_zero, Fatigue.ccVal_replicate_zero]
  have hexpr : (0.35 : ℝ) * 0 + 0.35 * sc + 0.3 * 0 = 0.35 * sc := by ring
  rw [hexpr]
  have hin : max 0 (min 1 (0.35 * sc)) = 0.35 * sc := by
    rw [min_eq_right (by linarith), max_eq_right (by linarith)]
  rw [hin]
  constructor
  · have hle := roundTo4_le_of_le 3500
      (show (0.35 : ℝ) * sc ≤ 0.35 by linarith) (by norm_num)
    have : ((3500 : ℤ) : ℝ) / 10000 = 0.35 := by norm_num
    linarith
  · rw [if_neg (show ¬(THETA_HARD < 0.35 * sc) by unfold THETA_HARD; push_neg; linarith),
      if_neg (show ¬(THETA_SOFT < 0.35 * sc) by unfold THETA_SOFT; push_neg; linarith)]

/-- C1 (amended): feeding the same unit embedding repeatedly produces zero
velocity vectors, so `dp = 0` and `cc = 0` by their zero-norm guards while
`sc = 1` (rank-one history); from the second update on the fatigue is the
constant `0.35` and the status stays `"fresh"` — it never strictly
increases, never exceeds the 0.68 soft threshold and never reaches
`"hard"`.  In any embedding dimension, for any value of the `sc` sub-score
in [0, 1], the fatigue after identical updates is at most `0.35`. -/
theorem C1_identical_embeddings_constant_fresh (x y : ℝ)
    (hunit : x ^ 2 + y ^ 2 = 1) (n : ℕ) (hn : 2 ≤ n) (d : ℕ) (v : Vec d)
    (sc : ℝ) (hsc0 : 0 ≤ sc) (hsc1 : sc ≤ 1) :
    Fatigue.score (Fatigue.run (List.replicate n (![x, y] : Vec 2)))
      = (0.35, some (0, 1, 0), "fresh") ∧
    (Fatigue.scoreWith (Fatigue.run (List.replicate n v)) sc).1 ≤ 0.35 ∧
    (Fatigue.scoreWith (Fatigue.run (List.replicate n v)) sc).2.2 = "fresh" :=
  ⟨Fatigue.score_replicate_unit x y hunit n hn,
   Fatigue.scoreWith_replicate_bound d v n hn sc hsc0 hsc1⟩

/-- C1 witness: five identical updates of the unit vector `(1, 0)`. -/
theorem C1_identical_embeddings_constant_fresh_witness :
    Fatigue.score (Fatigue.run (List.replicate 5 (![1, 0] : Vec 2)))
      = (0.35, some (0, 1, 0), "fresh") :=
  (C1_identical_embeddings_constant_fresh 1 0 (by norm_num) 5 (by norm_num)
    2 vUnit 0 (by norm_num) (by norm_num)).1

/-- C1 counterexample: with the identical unit vector `(1, 0)` the fatigue
is 0.35 at the 3rd, 4th and 5th update — it does not strictly increase, does
not exceed 0.68 by the 3rd–4th turn, and never exceeds the hard threshold,
and the status stays `"fresh"`. -/
theorem C1_identical_embeddings_counterexample :
    (Fatigue.score (Fatigue.run (List.replicate 3 (![1, 0] : Vec 2)))).1 = 0.35 ∧
    (Fatigue.score (Fatigue.run (List.replicate 4 (![1, 0] : Vec 2)))).1 = 0.35 ∧
    (Fatigue.score (Fatigue.run (List.replicate 5 (![1, 0] : Vec 2)))).1 = 0.35 ∧
    (Fatigue.score (Fatigue.run (List.replicate 5 (![1, 0] : Vec 2)))).2.2
      = "fresh" ∧
    ¬((Fatigue.score (Fatigue.run (List.replicate 3 (![1, 0] : Vec 2)))).1 <
        (Fatigue.score (Fatigue.run (List.replicate 4 (![1, 0] : Vec 2)))).1) ∧
    ¬(0.68 < (Fatigue.score (Fatigue.run (List.replicate 4 (![1, 0] : Vec 2)))).1) ∧
    ¬(THETA_HARD <
        (Fatigue.score (Fatigue.run (List.replicate 5 (![1, 0] : Vec 2)))).1) := by
  have h3 := Fatigue.score_replicate_unit 1 0 (by norm_num) 3 (by norm_num)
  have h4 := Fatigue.score_replicate_unit 1 0 (by norm_num) 4 (by norm_num)
  have h5 := Fatigue.score_replicate_unit 1 0 (by norm_num) 5 (by norm_num)
  rw [h3, h4, h5]
  refine ⟨rfl, rfl, rfl, rfl, by norm_num, by norm_num, ?_⟩
  unfold THETA_HARD
  norm_num

end Vessel

namespace Vessel

/-! ## Claim C6 -/

namespace Pulse

/-- Timestamps admissible for the stored last time: each update's timestamp
is at least the previous one (the claim's non-decreasing timestamps). -/
def timesOK : Option ℝ → List (String × Vec d × ℝ) → Prop
  | _, [] => True
  | none, (_, _, t) :: rest => timesOK (some t) rest
  | some t0, (_, _, t) :: rest => t0 ≤ t ∧ timesOK (some t) rest

theorem lenFactor_mem (msg : String) :
    0 ≤ lenFactor msg ∧ lenFactor msg ≤ 1 := by
  unfold lenFactor
  constructor
  · apply le_min
    · positivity
    · norm_num
  · exact min_le_right _ 1

theorem cos_ratio_le_one {a b : Vec d} (ha : 0 < nrm a) (hb : 0 < nrm b) :
    dotp a b / (nrm a * nrm b) ≤ 1 :=
  (div_le_one (mul_pos ha hb)).mpr (dotp_le_nrm_mul_nrm a b)

theorem novelty_mem (st : PulseState d) (emb : Vec d) :
    0 ≤ novelty st emb ∧ novelty st emb ≤ 1 := by
  unfold novelty
  cases st.last_user_emb with
  | none => norm_num
  | some le =>
    dsimp only
    by_cases h : 0 < nrm emb ∧ 0 < nrm le
    · rw [if_pos h]
      have h1 : max 0 (dotp emb le / (nrm emb * nrm le)) ≤ 1 :=
        max_le zero_le_one (cos_ratio_le_one h.1 h.2)
      have h2 : 0 ≤ max 0 (dotp emb le / (nrm emb * nrm le)) := le_max_left 0 _
      constructor <;> linarith
    · rw [if_neg h]
      norm_num

theorem dirChange_mem (st : PulseState d) (emb : Vec d) :
    0 ≤ dirChange st emb ∧ dirChange st emb ≤ 1 := by
  unfold dirChange
  cases st.prev_user_emb with
  | none =>
    cases st.last_user_emb with
    | none => norm_num
    | some le => norm_num
  | some pe =>
    cases st.last_user_emb with
    | none => norm_num
    | some le =>
      dsimp only
      by_cases h : 0 < nrm (le - pe) ∧ 0 < nrm (emb - le)
      · rw [if_pos h]
        have h1 : max 0 (dotp (le - pe) (emb - le)
            / (nrm (le - pe) * nrm (emb - le))) ≤ 1 :=
          max_le zero_le_one (cos_ratio_le_one h.1 h.2)
        have h2 : 0 ≤ max 0 (dotp (le - pe) (emb - le)
            / (nrm (le - pe) * nrm (emb - le))) := le_max_left 0 _
        constructor <;> linarith
      · rw [if_neg h]
        norm_num

theorem phiL_mem (st : PulseState d) (ts : ℝ)
    (ht : ∀ t0, st.last_time = some t0 → t0 ≤ ts) :
    0 ≤ phiL st ts ∧ phiL st ts ≤ 1 := by
  unfold phiL
  cases hlt : st.last_time with
  | none => norm_num
  | some t0 =>
    constructor
    · exact Real.exp_nonneg _
    · apply Real.exp_le_one_iff.mpr
      have := ht t0 hlt
      rw [neg_div]
      apply neg_nonpos_of_nonneg
      apply div_nonneg (by linarith) (by norm_num)

theorem sig_one_lt : (1 : ℝ) / (1 + Real.exp (-1)) < 0.73115 := by
  have he := Real.exp_neg_one_gt_d9
  rw [div_lt_iff₀ (by positivity)]
  nlinarith

theorem update_tau_mem (st : PulseState d) (m : String) (e : Vec d) (t : ℝ)
    (hlo : 1 / 2 ≤ st.tau) (hhi : st.tau ≤ 1 / (1 + Real.exp (-1)))
    (ht : ∀ t0, st.last_time = some t0 → t0 ≤ t) :
    (1 / 2 ≤ (update st m e t).1.tau ∧
      (update st m e t).1.tau ≤ 1 / (1 + Real.exp (-1))) ∧
    (1 / 2 ≤ (update st m e t).2 ∧ (update st m e t).2 ≤ 0.7311) ∧
    (update st m e t).1.last_time = some t := by
  obtain ⟨hphi0, hphi1⟩ := phiL_mem st t ht
  obtain ⟨hM0, hM1⟩ := lenFactor_mem m
  obtain ⟨hN0, hN1⟩ := novelty_mem st e
  obtain ⟨hD0, hD1⟩ := dirChange_mem st e
  unfold update
  dsimp only
  set z := 0.45 * phiL st t + 0.15 * lenFactor m
      + 0.25 * novelty st e + 0.15 * dirChange st e with hzdef
  have hz0 : 0 ≤ z := by rw [hzdef]; linarith
  have hz1 : z ≤ 1 := by rw [hzdef]; linarith
  have hexp_le : Real.exp (-z) ≤ 1 := Real.exp_le_one_iff.mpr (by linarith)
  have hexp_ge : Real.exp (-1) ≤ Real.exp (-z) := Real.exp_le_exp.mpr (by linarith)
  have hden : (0:ℝ) < 1 + Real.exp (-z) := by positivity
  have hraw_lo : 1 / 2 ≤ 1 / (1 + Real.exp (-z)) :=
    one_div_le_one_div_of_le hden (by linarith)
  have hraw_hi : 1 / (1 + Real.exp (-z)) ≤ 1 / (1 + Real.exp (-1)) :=
    one_div_le_one_div_of_le (by positivity) (by linarith)
  have htau_lo : 1 / 2 ≤ 0.7 * (1 / (1 + Real.exp (-z))) + 0.3 * st.tau := by
    linarith
  have htau_hi : 0.7 * (1 / (1 + Real.exp (-z))) + 0.3 * st.tau
      ≤ 1 / (1 + Real.exp (-1)) := by linarith
  refine ⟨⟨htau_lo, htau_hi⟩, ⟨?_, ?_⟩, rfl⟩
  · have hlr := le_roundTo4_of_le 5000 htau_lo
      (by norm_num : (5000:ℤ) ≤ (1:ℝ)/2 * 10000 + 1/2)
    have : ((5000:ℤ):ℝ) / 10000 = 1/2 := by norm_num
    linarith
  · have hsig := sig_one_lt
    have hc : (1:ℝ) / (1 + Real.exp (-1)) * 10000 + 1/2 < (7311:ℤ) + 1 := by
      push_cast
      nlinarith
    have hur := roundTo4_le_of_le 7311
      (le_trans htau_hi (le_refl _)) hc
    have : ((7311:ℤ):ℝ) / 10000 = 0.7311 := by norm_num
    linarith

theorem run_bounds (d : ℕ) (inputs : List (String × Vec d × ℝ)) :
    ∀ st : PulseState d, 1 / 2 ≤ st.tau → st.tau ≤ 1 / (1 + Real.exp (-1)) →
    timesOK st.last_time inputs →
    (∀ τ ∈ (run st inputs).2, 1 / 2 ≤ τ ∧ τ ≤ 0.7311) ∧
    (1 / 2 ≤ (run st inputs).1.tau ∧
      (run st inputs).1.tau ≤ 1 / (1 + Real.exp (-1))) := by
  induction inputs with
  | nil =>
    intro st hlo hhi _
    exact ⟨by simp [run], hlo, hhi⟩
  | cons p rest ih =>
    intro st hlo hhi hts
    obtain ⟨m, e, t⟩ := p
    have ht : ∀ t0, st.last_time = some t0 → t0 ≤ t := by
      intro t0 h0
      cases hcase : st.last_time with
      | none => rw [hcase] at h0; cases h0
      | some t1 =>
        rw [hcase] at h0 hts
        unfold timesOK at hts
        rw [Option.some.inj h0] at hts
        exact hts.1
    obtain ⟨⟨hlo1, hhi1⟩, ⟨hr0, hr1⟩, hlt⟩ := update_tau_mem st m e t hlo hhi ht
    have hts1 : timesOK (update st m e t).1.last_time rest := by
      rw [hlt]
      cases hcase : st.last_time with
      | none => rw [hcase] at hts; exact hts
      | some t1 => rw [hcase] at hts; exact hts.2
    obtain ⟨hmem, hfin⟩ := ih (update st m e t).1 hlo1 hhi1 hts1
    refine ⟨?_, hfin⟩
    intro τ hτ
    show 1 / 2 ≤ τ ∧ τ ≤ 0.7311
    have hshape : (run st ((m, e, t) :: rest)).2
        = (update st m e t).2 :: (run (update st m e t).1 rest).2 := rfl
    rw [hshape, List.mem_cons] at hτ
    rcases hτ with hτ | hτ
    · rw [hτ]
      exact ⟨hr0, hr1⟩
    · exact hmem τ hτ

theorem half_length_le_sum (l : List ℝ) (h : ∀ x ∈ l, 1 / 2 ≤ x) :
    (l.length : ℝ) / 2 ≤ l.sum := by
  induction l with
  | nil => simp
  | cons a rest ih =>
    have ha := h a (List.mem_cons_self a rest)
    have hrest := ih (fun x hx => h x (List.mem_cons_of_mem a hx))
    rw [List.length_cons, List.sum_cons]
    push_cast
    linarith

theorem run_output_length (d : ℕ) (inputs : List (String × Vec d × ℝ)) :
    ∀ st : PulseState d, (run st inputs).2.length = inputs.length := by
  induction inputs with
  | nil => intro st; rfl
  | cons p rest ih =>
    intro st
    obtain ⟨m, e, t⟩ := p
    show ((update st m e t).2 :: (run (update st m e t).1 rest).2).length = _
    rw [List.length_cons, ih]
    rfl

end Pulse

/-- C6: for every session of `update` calls with non-decreasing timestamps,
each factor lies in [0, 1] (the latency factor under the timestamp
hypothesis), the internal EMA pulse stays in `[1/2, 1/(1 + e^(−1))]` (i.e.
`[0.5, sigmoid 1]`), every returned (rounded) pulse lies in `[0.5, 0.7311]`,
and the mean of the returned pulses of a non-empty session exceeds 0.4 — the
"reflective" regime `mean τ < 0.4` is unreachable from live updates. -/
theorem C6_pulse_never_reflective (d : ℕ) (inputs : List (String × Vec d × ℝ))
    (hts : Pulse.timesOK none inputs) (hne : inputs ≠ []) :
    (∀ msg : String, 0 ≤ Pulse.lenFactor msg ∧ Pulse.lenFactor msg ≤ 1) ∧
    (∀ (st : PulseState d) (emb : Vec d),
      0 ≤ Pulse.novelty st emb ∧ Pulse.novelty st emb ≤ 1) ∧
    (∀ (st : PulseState d) (emb : Vec d),
      0 ≤ Pulse.dirChange st emb ∧ Pulse.dirChange st emb ≤ 1) ∧
    (∀ (st : PulseState d) (ts : ℝ), (∀ t0, st.last_time = some t0 → t0 ≤ ts) →
      0 ≤ Pulse.phiL st ts ∧ Pulse.phiL st ts ≤ 1) ∧
    (∀ τ ∈ (Pulse.run (Pulse.init d) inputs).2, 1 / 2 ≤ τ ∧ τ ≤ 0.7311) ∧
    (1 / 2 ≤ (Pulse.run (Pulse.init d) inputs).1.tau ∧
      (Pulse.run (Pulse.init d) inputs).1.tau ≤ 1 / (1 + Real.exp (-1))) ∧
    0.4 < (Pulse.run (Pulse.init d) inputs).2.sum
        / ((Pulse.run (Pulse.init d) inputs).2.length : ℝ) := by
  have hinit_lo : 1 / 2 ≤ (Pulse.init d).tau := by unfold Pulse.init; norm_num
  have hinit_hi : (Pulse.init d).tau ≤ 1 / (1 + Real.exp (-1)) := by
    unfold Pulse.init
    dsimp only
    rw [show (0.5:ℝ) = 1/2 by norm_num]
    apply one_div_le_one_div_of_le (by positivity)
    have hle := Real.exp_le_one_iff.mpr (by norm_num : (-1:ℝ) ≤ 0)
    linarith
  have hinit_ts : Pulse.timesOK (Pulse.init d).last_time inputs := hts
  obtain ⟨hmem, hfin⟩ := Pulse.run_bounds d inputs (Pulse.init d)
    hinit_lo hinit_hi hinit_ts
  refine ⟨Pulse.lenFactor_mem, Pulse.novelty_mem, Pulse.dirChange_mem,
    Pulse.phiL_mem, hmem, hfin, ?_⟩
  have hlen : (Pulse.run (Pulse.init d) inputs).2.length = inputs.length :=
    Pulse.run_output_length d inputs (Pulse.init d)
  have hpos : 0 < inputs.length := List.length_pos.mpr hne
  have hsum := Pulse.half_length_le_sum (Pulse.run (Pulse.init d) inputs).2
    (fun x hx => (hmem x hx).1)
  rw [hlen] at hsum ⊢
  have hlenR : (0:ℝ) < (inputs.length : ℝ) := by exact_mod_cast hpos
  rw [lt_div_iff₀ hlenR]
  linarith

/-- C6 witness: a one-update session with message length 0 at timestamp 0. -/
theorem C6_pulse_never_reflective_witness :
    0.4 < (Pulse.run (Pulse.init 2) [("", vUnit, 0)]).2.sum
        / ((Pulse.run (Pulse.init 2) [("", vUnit, 0)]).2.length : ℝ) :=
  (C6_pulse_never_reflective 2 [("", vUnit, 0)] trivial (by simp)).2.2.2.2.2.2

end Vessel
